import Mathlib

/-!
Shallow embedding of the list-interaction engine of
`apps/haste-inspector/src/DemEntities.tsx`: the entity / field pipelines,
the field-selection state machine, handle navigation and export
materialization. Definitions mirror the TypeScript source; theorems settle
the specified properties.
-/

namespace HasteInspector

/-- `EntityLi` records handed over by the decoding engine
(`{ index, name }`). -/
structure EntityLi where
  index : Nat
  name : String
deriving DecidableEq, Repr

/-- `EntityFieldLi` records handed over by the decoding engine:
`{ path, namedPath, encodedAs, decodedAs, value }`. -/
structure EntityFieldLi where
  path : List Nat
  namedPath : List String
  encodedAs : String
  decodedAs : String
  value : String
deriving DecidableEq, Repr

/-- Model of JavaScript `Number.prototype.toString()` on a non-negative
integer: its decimal numeral, as a list of characters. -/
def natToChars (n : Nat) : List Char :=
  if h : n < 10 then [Nat.digitChar n]
  else natToChars (n / 10) ++ [Nat.digitChar (n % 10)]
decreasing_by exact Nat.div_lt_self (by omega) (by omega)

/-- Model of `s.padStart(4, " ")`: left-pad with spaces up to length 4. -/
def padStart4 (s : List Char) : List Char :=
  List.replicate (4 - s.length) ' ' ++ s

/-- `joinedPath` as built in `EntityFieldList`:
`Array.from(path).map(part => part.toString().padStart(4, " ")).join("")`. -/
def joinedPath (f : EntityFieldLi) : String :=
  ⟨(f.path.map (fun part => padStart4 (natToChars part))).flatten⟩

/-- `joinedNamedPath` as built in `EntityFieldList`: `namedPath.join(".")`. -/
def joinedNamedPath (f : EntityFieldLi) : String :=
  String.intercalate "." f.namedPath

/-- The wrapped display record built by the normalize stage of
`EntityFieldList` (`{ inner, joinedPath, joinedNamedPath }`). -/
structure WrappedEntityFieldLi where
  inner : EntityFieldLi
  joinedPath : String
  joinedNamedPath : String
deriving DecidableEq, Repr

/-- Normalize one engine record into its display record. -/
def wrapField (f : EntityFieldLi) : WrappedEntityFieldLi :=
  { inner := f, joinedPath := joinedPath f, joinedNamedPath := joinedNamedPath f }

/-- The sort comparator of `EntityFieldList` (`entityFieldList?.sort`):
compare `path` arrays element by element; if the paths are equal up to the
minimum length, the shorter path comes first. -/
def pathCmp : List Nat → List Nat → Ordering
  | [], [] => .eq
  | [], _ :: _ => .lt
  | _ :: _, [] => .gt
  | a :: as, b :: bs =>
    if a < b then .lt else if b < a then .gt else pathCmp as bs

/-- `a` sorts no later than `b` under the comparator (comparator result
`≤ 0` in the JavaScript encoding). -/
def pathLe (a b : List Nat) : Bool :=
  pathCmp a b ≠ Ordering.gt

/-- The comparator lifted to wrapped display records. -/
def fieldLe (a b : WrappedEntityFieldLi) : Bool :=
  pathLe a.inner.path b.inner.path

/-- The normalize-and-sort stage of the field pipeline: wrap every engine
record, then sort with the path comparator (JavaScript `Array.prototype.sort`
is stable; modelled by stable `List.mergeSort`). -/
def sortFields (l : List WrappedEntityFieldLi) : List WrappedEntityFieldLi :=
  l.mergeSort fieldLe

/-! ## Field selection state machine -/

/-- The field-selection state of `EntityFieldList`: the JavaScript
`Set<string>` `selectedFieldPaths` (display names of selected fields) and
`lastSelectedIndexRef.current` (the anchor row index, `none` when
`undefined`). -/
structure FieldSelState where
  selectedFieldPaths : Finset String
  lastSelectedIndex : Option Nat
deriving DecidableEq

/-- The set of display names collected by the shift-range loop
`for (let i = start; i <= end; i++) { const listItem = filtered[i]; if
(listItem) next.add(listItem.joinedNamedPath); }`. -/
def rangeNames (filtered : List WrappedEntityFieldLi) (start stop : Nat) :
    Finset String :=
  (((List.range (stop + 1 - start)).filterMap
      fun k => filtered[start + k]?).map (·.joinedNamedPath)).toFinset

/-- The non-shift branches of the `setSelectedFieldPaths` updater in
`updateSelection`: ctrl/meta toggles membership of `path`; a plain click
keeps the set when it is exactly the singleton of `path`, and otherwise
replaces it with that singleton. -/
def nonRangeSelection (metaKey ctrlKey : Bool) (prev : Finset String)
    (path : String) : Finset String :=
  if metaKey || ctrlKey then
    if path ∈ prev then prev.erase path else insert path prev
  else if prev.card = 1 ∧ path ∈ prev then prev
  else {path}

/-- `updateSelection` of `EntityFieldList`: no-op when the filtered list is
empty (or absent); otherwise compute the next selection set (range when
shift is held and an anchor exists, else `nonRangeSelection`) and
unconditionally set the anchor to the clicked row index. -/
def updateSelection (shiftKey metaKey ctrlKey : Bool)
    (filtered : List WrappedEntityFieldLi) (st : FieldSelState)
    (itemIndex : Nat) (path : String) : FieldSelState :=
  if filtered.length = 0 then st
  else
    { selectedFieldPaths :=
        match st.lastSelectedIndex, shiftKey with
        | some a, true =>
          rangeNames filtered (min a itemIndex) (max a itemIndex)
        | _, _ => nonRangeSelection metaKey ctrlKey st.selectedFieldPaths path
      lastSelectedIndex := some itemIndex }

/-- The pruning effect of `EntityFieldList` that runs after every update of
the filtered field list: an empty (or absent) list resets anchor and
selection; otherwise members whose display name is not in the new list are
dropped and the rest are kept. -/
def pruneEffect (filtered : Option (List WrappedEntityFieldLi))
    (st : FieldSelState) : FieldSelState :=
  match filtered with
  | none => ⟨∅, none⟩
  | some l =>
    if l.length = 0 then ⟨∅, none⟩
    else
      let availablePaths := (l.map (·.joinedNamedPath)).toFinset
      ⟨st.selectedFieldPaths.filter (· ∈ availablePaths), st.lastSelectedIndex⟩

/-- Two sample engine field records used for concrete evaluations. -/
def ceField0 : EntityFieldLi := ⟨[0], ["a"], "t", "u", "0"⟩

/-- Second sample engine field record. -/
def ceField1 : EntityFieldLi := ⟨[1], ["b"], "t", "u", "1"⟩

/-- A concrete two-row filtered field list. -/
def ceFields : List WrappedEntityFieldLi := [wrapField ceField0, wrapField ceField1]

/-- The display names of the contiguous rows `s .. t` (inclusive) of the
filtered list, in that list's current order. -/
def sliceNames (filtered : List WrappedEntityFieldLi) (s t : Nat) :
    Finset String :=
  (((filtered.drop s).take (t + 1 - s)).map (·.joinedNamedPath)).toFinset

/-! ## Entity pipeline, shared state and export materialization -/

/-- The `demViewAtom` value: `"entities" | "baselineEntities"`. -/
inductive DemView where
  | entities
  | baselineEntities
deriving DecidableEq, Repr

/-- The decoding-engine accessors consumed from `haste-wasm` for the
current tick; each call may also yield `undefined`. -/
structure DemParser where
  listEntities : Option (List EntityLi)
  listBaselineEntities : Option (List EntityLi)
  listEntityFields : Nat → Option (List EntityFieldLi)
  listBaselineEntityFields : Nat → Option (List EntityFieldLi)

/-- The shared and local state read by the export and selection code of
`DemEntities`: the parser / view / tick / selected-entity atoms, the two
filtered lists, and the field-selection state. -/
structure InspectorState where
  demParser : Option DemParser
  demView : DemView
  demTick : Int
  demSelectedEntityIndex : Option Nat
  filteredEntityList : Option (List EntityLi)
  filteredEntityFieldList : Option (List WrappedEntityFieldLi)
  fieldSel : FieldSelState

/-- `isBaselineView`: `demView === "baselineEntities"`. -/
def isBaselineView (st : InspectorState) : Bool :=
  decide (st.demView = DemView.baselineEntities)

/-- The source stage of the entity pipeline (`EntityList`'s `entityList`
memo): pull the snapshot list for the current view from the engine. -/
def entityList (st : InspectorState) : Option (List EntityLi) :=
  match st.demParser with
  | none => none
  | some parser =>
    match st.demView with
    | .entities => parser.listEntities
    | .baselineEntities => parser.listBaselineEntities

/-- The per-view field accessor used by `collectEntitiesForExport`. -/
def sourceFields (st : InspectorState) (i : Nat) : Option (List EntityFieldLi) :=
  match st.demParser with
  | none => none
  | some parser =>
    if isBaselineView st then parser.listBaselineEntityFields i
    else parser.listEntityFields i

/-- `ExportEntityField` as materialized at export time. -/
structure ExportEntityField where
  path : String
  pathSegments : List Nat
  encodedAs : String
  decodedAs : String
  value : String
deriving DecidableEq, Repr

/-- `ExportEntity` as materialized at export time. -/
structure ExportEntity where
  index : Nat
  name : String
  fields : List ExportEntityField
deriving DecidableEq, Repr

/-- One field of the bulk entity export:
`{ path: namedPath.join("."), pathSegments: Array.from(path), encodedAs,
decodedAs, value }`. -/
def exportFieldOfEntityField (f : EntityFieldLi) : ExportEntityField :=
  ⟨String.intercalate "." f.namedPath, f.path, f.encodedAs, f.decodedAs, f.value⟩

/-- `collectEntitiesForExport` of `EntityList`: re-list all entities for
the current view, and pair each with its freshly fetched full field list
(`listEntityFields(entity.index) ?? []`). -/
def collectEntitiesForExport (st : InspectorState) : List ExportEntity :=
  match st.demParser with
  | none => []
  | some parser =>
    let entities :=
      if isBaselineView st then parser.listBaselineEntities
      else parser.listEntities
    let entityFields :=
      if isBaselineView st then parser.listBaselineEntityFields
      else parser.listEntityFields
    match entities with
    | none => []
    | some entities =>
      if entities.length = 0 then []
      else
        entities.map fun entity =>
          ⟨entity.index, entity.name,
            ((entityFields entity.index).getD []).map exportFieldOfEntityField⟩

/-- The JSON payload of `handleExportAllJson`
(`{ tick, view, entities }`); the export is a no-op (`none`) when there are
no entities to export. -/
structure ExportAllPayload where
  tick : Int
  view : String
  entities : List ExportEntity
deriving DecidableEq, Repr

/-- `handleExportAllJson` (without the browser download mechanics): build
the payload unless there is nothing to export. -/
def handleExportAllJson (st : InspectorState) : Option ExportAllPayload :=
  let entitiesForExport := collectEntitiesForExport st
  if entitiesForExport.length = 0 then none
  else
    some ⟨st.demTick,
      if isBaselineView st then "baselineEntities" else "entities",
      entitiesForExport⟩

/-- A concrete parser snapshot for witnesses. -/
def ceParser : DemParser where
  listEntities := some [⟨0, "A"⟩, ⟨1, "B"⟩]
  listBaselineEntities := some []
  listEntityFields := fun i => if i = 1 then some [ceField0] else some []
  listBaselineEntityFields := fun _ => some []

/-- A concrete inspector state (text filter active, fields selected). -/
def ceStateA : InspectorState :=
  ⟨some ceParser, .entities, 3, some 1, some [⟨1, "B"⟩], some ceFields,
    ⟨{"a"}, some 0⟩⟩

/-- The same parser and view with a different filtered list and selection. -/
def ceStateB : InspectorState :=
  ⟨some ceParser, .entities, 3, none, some [], none, ⟨∅, none⟩⟩

/-! ## Field-list export -/

/-- `selectedFields` of `EntityFieldList`: the rows of the filtered list
whose display name is in the selection set (empty when the list is absent
or nothing is selected). -/
def selectedFields (st : InspectorState) : List WrappedEntityFieldLi :=
  match st.filteredEntityFieldList with
  | none => []
  | some l =>
    if st.fieldSel.selectedFieldPaths.card = 0 then []
    else l.filter (fun f => f.joinedNamedPath ∈ st.fieldSel.selectedFieldPaths)

/-- `visibleFields`: `filteredEntityFieldList ?? []`. -/
def visibleFields (st : InspectorState) : List WrappedEntityFieldLi :=
  st.filteredEntityFieldList.getD []

/-- `exportableFields`: the selected rows when any are selected, else the
visible (filtered) rows. -/
def exportableFields (st : InspectorState) : List WrappedEntityFieldLi :=
  if 0 < (selectedFields st).length then selectedFields st else visibleFields st

/-- The line emitted per field by `handleExportRaw`:
`` `${field.joinedNamedPath}: ${field.inner.value}` ``. -/
def exportLine (f : WrappedEntityFieldLi) : String :=
  f.joinedNamedPath ++ ": " ++ f.inner.value

/-- The lines of `handleExportRaw` (a no-op, `none`, when there is nothing
exportable). -/
def exportRawLines (st : InspectorState) : Option (List String) :=
  if (exportableFields st).length = 0 then none
  else some ((exportableFields st).map exportLine)

/-- The full plain-text content of `handleExportRaw`:
`` `${lines.join("\n")}\n` ``. -/
def handleExportRawContent (st : InspectorState) : Option String :=
  (exportRawLines st).map (fun lines => String.intercalate "\n" lines ++ "\n")

/-! ## Handle navigation -/

/-- Model of `s.startsWith(pre)`: `pre`'s characters begin `s`'s. -/
def strStartsWith (s pre : String) : Bool :=
  pre.data.isPrefixOf s.data

/-- The per-row handle resolution of `EntityFieldList`
(`handle = encodedAs.startsWith("CHandle")`,
`handleValid = handle && isEHandleValid(+value)`,
`linkedEntIdx = handleValid ? eHandleToIndex(+value) : null`). The validity
predicate and handle-to-index mapping come from `haste-wasm` and are
parameters; `v` is the numeric coercion `+value` of the rendered value. -/
def linkedEntIdx (isEHandleValid : Nat → Bool) (eHandleToIndex : Nat → Nat)
    (f : WrappedEntityFieldLi) (v : Nat) : Option Nat :=
  if strStartsWith f.inner.encodedAs "CHandle" && isEHandleValid v then
    some (eHandleToIndex v)
  else none

/-- `handleFieldClick`: always run the row-selection update; additionally,
when the row resolves to a linked entity index and no modifier is held,
toggle the shared selected-entity atom to that index. Returns the new
field-selection state and the new `demSelectedEntityIndex`. -/
def handleFieldClick (shiftKey metaKey ctrlKey : Bool)
    (filtered : List WrappedEntityFieldLi) (sel : FieldSelState)
    (demSelectedEntityIndex : Option Nat) (itemIndex : Nat)
    (linkedEntityIndex : Option Nat) (path : String) :
    FieldSelState × Option Nat :=
  (updateSelection shiftKey metaKey ctrlKey filtered sel itemIndex path,
    match linkedEntityIndex with
    | some idx =>
      if !metaKey && !ctrlKey && !shiftKey then
        if demSelectedEntityIndex = some idx then none else some idx
      else demSelectedEntityIndex
    | none => demSelectedEntityIndex)

/-- A concrete handle-typed field whose value resolves to entity 7. -/
def ceHandleField : EntityFieldLi := ⟨[2], ["owner"], "CHandle< C_Foo >", "u32", "7"⟩

/-! ## The derived sort key -/

/-- Lexicographic comparison of character sequences (string comparison),
by code point. -/
def lexCmp : List Char → List Char → Ordering
  | [], [] => .eq
  | [], _ :: _ => .lt
  | _ :: _, [] => .gt
  | a :: as, b :: bs =>
    if a.toNat < b.toNat then .lt
    else if b.toNat < a.toNat then .gt
    else lexCmp as bs

/-- Numeric comparison of two naturals as an `Ordering`. -/
def natCmpO (a b : Nat) : Ordering :=
  if a < b then .lt else if b < a then .gt else .eq

/-- Left-pad with zeros up to length 4. -/
def padZero4 (s : List Char) : List Char :=
  List.replicate (4 - s.length) '0' ++ s

/-- The sort key described by the spec's words: the path integers, each
zero-padded to 4 digits, concatenated. -/
def specZeroPadSortKey (f : EntityFieldLi) : String :=
  ⟨(f.path.map (fun part => padZero4 (natToChars part))).flatten⟩

/-! ## Theorems -/

theorem pathCmp_cons (a b : Nat) (as bs : List Nat) :
    pathCmp (a :: as) (b :: bs) =
      if a < b then .lt else if b < a then .gt else pathCmp as bs := rfl

theorem pathCmp_swap : ∀ a b, pathCmp b a = (pathCmp a b).swap
  | [], [] => rfl
  | [], _ :: _ => rfl
  | _ :: _, [] => rfl
  | a :: as, b :: bs => by
    rw [pathCmp_cons, pathCmp_cons]
    rcases Nat.lt_trichotomy a b with h | h | h
    · simp [h, show ¬ b < a by omega, Ordering.swap]
    · subst h
      simp only [lt_irrefl, if_false]
      exact pathCmp_swap as bs
    · simp [h, show ¬ a < b by omega, Ordering.swap]

theorem pathCmp_eq_iff : ∀ a b, pathCmp a b = Ordering.eq ↔ a = b
  | [], [] => by simp [pathCmp]
  | [], _ :: _ => by simp [pathCmp]
  | _ :: _, [] => by simp [pathCmp]
  | a :: as, b :: bs => by
    rw [pathCmp_cons]
    rcases Nat.lt_trichotomy a b with h | h | h
    · simp only [if_pos h, List.cons.injEq]
      constructor
      · intro hc; cases hc
      · rintro ⟨rfl, -⟩; omega
    · subst h
      simp only [lt_irrefl, if_false]
      simp [pathCmp_eq_iff as bs]
    · rw [if_neg (by omega), if_pos h]
      simp only [List.cons.injEq]
      constructor
      · intro hc; cases hc
      · rintro ⟨rfl, -⟩; omega

theorem pathLe_total (a b : List Nat) : pathLe a b = true ∨ pathLe b a = true := by
  unfold pathLe
  rw [pathCmp_swap a b]
  cases h : pathCmp a b <;> simp [Ordering.swap]

theorem pathLe_antisymm {a b : List Nat}
    (h₁ : pathLe a b = true) (h₂ : pathLe b a = true) : a = b := by
  unfold pathLe at h₁ h₂
  rw [pathCmp_swap a b] at h₂
  rw [← pathCmp_eq_iff a b]
  cases h : pathCmp a b <;> simp_all [Ordering.swap]

theorem pathCmp_lt_trans :
    ∀ {a b c : List Nat}, pathCmp a b = Ordering.lt →
      pathCmp b c = Ordering.lt → pathCmp a c = Ordering.lt
  | [], [], _, hab, _ => by cases hab
  | [], _ :: _, [], _, hbc => by cases hbc
  | [], _ :: _, _ :: _, _, _ => rfl
  | _ :: _, [], _, hab, _ => by cases hab
  | a :: as, b :: bs, [], _, hbc => Ordering.noConfusion hbc
  | a :: as, b :: bs, c :: cs, hab, hbc => by
    rw [pathCmp_cons] at hab hbc ⊢
    rcases Nat.lt_trichotomy a b with h₁ | h₁ | h₁
    · rcases Nat.lt_trichotomy b c with h₂ | h₂ | h₂
      · simp [show a < c by omega]
      · subst h₂; simp [h₁]
      · simp [show ¬ b < c by omega, h₂] at hbc
    · subst h₁
      rcases Nat.lt_trichotomy a c with h₂ | h₂ | h₂
      · simp [h₂]
      · subst h₂
        simp only [lt_irrefl, if_false] at hab hbc ⊢
        exact pathCmp_lt_trans hab hbc
      · simp [show ¬ a < c by omega, h₂] at hbc
    · simp [show ¬ a < b by omega, h₁] at hab

theorem pathLe_trans {a b c : List Nat}
    (h₁ : pathLe a b = true) (h₂ : pathLe b c = true) : pathLe a c = true := by
  unfold pathLe at h₁ h₂ ⊢
  simp only [ne_eq, decide_eq_true_eq] at h₁ h₂ ⊢
  intro hac
  rcases hcab : pathCmp a b with h | h | h
  · rcases hcbc : pathCmp b c with h' | h' | h'
    · rw [pathCmp_lt_trans hcab hcbc] at hac; cases hac
    · rw [(pathCmp_eq_iff b c).mp hcbc] at hcab
      rw [hcab] at hac; cases hac
    · exact h₂ hcbc
  · rw [(pathCmp_eq_iff a b).mp hcab] at hac
    exact h₂ hac
  · exact h₁ hcab

theorem fieldLe_total (a b : WrappedEntityFieldLi) :
    fieldLe a b = true ∨ fieldLe b a = true := pathLe_total _ _

theorem fieldLe_trans {a b c : WrappedEntityFieldLi}
    (h₁ : fieldLe a b = true) (h₂ : fieldLe b c = true) : fieldLe a c = true :=
  pathLe_trans h₁ h₂

theorem sortFields_idem (l : List WrappedEntityFieldLi) :
    sortFields (sortFields l) = sortFields l := by
  unfold sortFields
  exact List.mergeSort_of_sorted
    (@List.sorted_mergeSort _ fieldLe
      (fun a b c h₁ h₂ => fieldLe_trans h₁ h₂)
      (fun a b => by rcases fieldLe_total a b with h | h <;> simp [h]) l)

/-- C1: the display ordering comparator is a total order on `path`
sequences (total, transitive, antisymmetric), compares element-by-element
with shorter-prefix-first tie-break, and re-sorting an already-sorted field
list is a no-op. -/
theorem display_order_total_and_sort_idempotent :
    (∀ a b : List Nat, pathLe a b = true ∨ pathLe b a = true) ∧
    (∀ a b c : List Nat, pathLe a b = true → pathLe b c = true →
      pathLe a c = true) ∧
    (∀ a b : List Nat, pathLe a b = true → pathLe b a = true → a = b) ∧
    (∀ l : List WrappedEntityFieldLi, sortFields (sortFields l) = sortFields l) :=
  ⟨pathLe_total, fun _ _ _ => pathLe_trans, fun _ _ => pathLe_antisymm,
    sortFields_idem⟩

theorem singleton_iff_card_and_mem (s : Finset String) (p : String) :
    (s.card = 1 ∧ p ∈ s) ↔ s = {p} := by
  constructor
  · rintro ⟨hc, hp⟩
    obtain ⟨a, rfl⟩ := Finset.card_eq_one.mp hc
    rw [Finset.mem_singleton] at hp
    subst hp
    rfl
  · rintro rfl
    exact ⟨Finset.card_singleton p, Finset.mem_singleton_self p⟩

theorem updateSelection_nonshift (m c : Bool)
    (filtered : List WrappedEntityFieldLi) (st : FieldSelState)
    (i : Nat) (p : String) (hne : filtered.length ≠ 0) :
    updateSelection false m c filtered st i p =
      ⟨nonRangeSelection m c st.selectedFieldPaths p, some i⟩ := by
  unfold updateSelection
  rw [if_neg hne]
  cases st.lastSelectedIndex <;> rfl

theorem updateSelection_shift_anchor (m c : Bool)
    (filtered : List WrappedEntityFieldLi) (st : FieldSelState)
    (i p a) (hne : filtered.length ≠ 0) (ha : st.lastSelectedIndex = some a) :
    updateSelection true m c filtered st i p =
      ⟨rangeNames filtered (min a i) (max a i), some i⟩ := by
  unfold updateSelection
  rw [if_neg hne, ha]

theorem updateSelection_shift_noanchor (m c : Bool)
    (filtered : List WrappedEntityFieldLi) (st : FieldSelState)
    (i p) (ha : st.lastSelectedIndex = none) :
    updateSelection true m c filtered st i p =
      updateSelection false m c filtered st i p := by
  unfold updateSelection
  by_cases hl : filtered.length = 0
  · rw [if_pos hl, if_pos hl]
  · rw [if_neg hl, if_neg hl, ha]

/-- C6: a plain click (no modifier) on a row with display name `p` keeps
the selection set when it is exactly `{p}`, and otherwise replaces it with
exactly `{p}`. -/
theorem plain_click_keeps_singleton_else_replaces
    (filtered : List WrappedEntityFieldLi) (st : FieldSelState)
    (i : Nat) (p : String) (hne : filtered ≠ []) :
    (st.selectedFieldPaths = {p} →
      (updateSelection false false false filtered st i p).selectedFieldPaths
        = st.selectedFieldPaths) ∧
    (st.selectedFieldPaths ≠ {p} →
      (updateSelection false false false filtered st i p).selectedFieldPaths
        = {p}) := by
  have hlen : filtered.length ≠ 0 := by simpa [List.length_eq_zero] using hne
  rw [updateSelection_nonshift false false filtered st i p hlen]
  unfold nonRangeSelection
  constructor
  · intro hp
    rw [if_neg (by simp), if_pos ((singleton_iff_card_and_mem _ _).mpr hp)]
  · intro hp
    rw [if_neg (by simp)]
    by_cases hc : st.selectedFieldPaths.card = 1 ∧ p ∈ st.selectedFieldPaths
    · exact absurd ((singleton_iff_card_and_mem _ _).mp hc) hp
    · rw [if_neg hc]

/-- Witness for C6 at a concrete input. -/
theorem plain_click_keeps_singleton_else_replaces_witness :
    (updateSelection false false false ceFields ⟨{"a"}, none⟩ 0 "a").selectedFieldPaths
      = {"a"} :=
  (plain_click_keeps_singleton_else_replaces ceFields ⟨{"a"}, none⟩ 0 "a"
    (by decide)).1 (by decide)

theorem filterMap_range_getElem {α : Type} (l : List α) (s : Nat) :
    ∀ n, s + n ≤ l.length →
      (List.range n).filterMap (fun k => l[s + k]?) = (l.drop s).take n := by
  intro n
  induction n with
  | zero => simp
  | succ n ih =>
    intro h
    have hs : s + n < l.length := by omega
    rw [List.range_succ, List.filterMap_append, ih (by omega), List.take_succ]
    simp [List.getElem?_drop, List.getElem?_eq_getElem hs]

theorem rangeNames_eq_sliceNames (filtered : List WrappedEntityFieldLi)
    (s t : Nat) (hst : s ≤ t) (ht : t < filtered.length) :
    rangeNames filtered s t = sliceNames filtered s t := by
  unfold rangeNames sliceNames
  rw [filterMap_range_getElem filtered s (t + 1 - s) (by omega)]

/-- C7: a shift (range) click with an existing anchor `a` on target row `i`
(both within the filtered list) selects exactly the display names of the
contiguous rows between `a` and `i` inclusive, in the filtered list's
order, and the resulting set is the same with the roles of `a` and `i`
swapped. -/
theorem range_click_slice_and_commutative (m c : Bool)
    (filtered : List WrappedEntityFieldLi) (st₁ st₂ : FieldSelState)
    (a i : Nat) (p q : String)
    (ha : st₁.lastSelectedIndex = some a) (hi : st₂.lastSelectedIndex = some i)
    (hal : a < filtered.length) (hil : i < filtered.length) :
    (updateSelection true m c filtered st₁ i p).selectedFieldPaths
        = sliceNames filtered (min a i) (max a i) ∧
    (updateSelection true m c filtered st₁ i p).selectedFieldPaths
        = (updateSelection true m c filtered st₂ a q).selectedFieldPaths := by
  have hne : filtered.length ≠ 0 := by omega
  rw [updateSelection_shift_anchor m c filtered st₁ i p a hne ha,
    updateSelection_shift_anchor m c filtered st₂ a q i hne hi]
  refine ⟨?_, ?_⟩
  · exact rangeNames_eq_sliceNames filtered _ _ min_le_max (max_lt hal hil)
  · simp only [min_comm a i, max_comm a i]

/-- Witness for C7 at a concrete input. -/
theorem range_click_slice_and_commutative_witness :
    (updateSelection true false false ceFields ⟨∅, some 0⟩ 1 "b").selectedFieldPaths
        = sliceNames ceFields 0 1 ∧
    (updateSelection true false false ceFields ⟨∅, some 0⟩ 1 "b").selectedFieldPaths
        = (updateSelection true false false ceFields ⟨∅, some 1⟩ 0 "a").selectedFieldPaths :=
  range_click_slice_and_commutative false false ceFields ⟨∅, some 0⟩ ⟨∅, some 1⟩
    0 1 "b" "a" rfl rfl (by decide) (by decide)

/-- C3 counterexample: a concrete range (shift) click performed while the
anchor is row 0 moves the anchor to the clicked row 1, so the anchor after
the click differs from the anchor before it. -/
theorem range_click_anchor_moves_ce :
    (updateSelection true false false ceFields ⟨∅, some 0⟩ 1 "b").lastSelectedIndex
      ≠ some 0 := by decide

/-- C3 amended: a range (shift) click performed while an anchor exists
replaces the selection set by the range between the anchor and the clicked
row, and sets the anchor to the clicked row's index. -/
theorem range_click_replaces_selection_sets_anchor (m c : Bool)
    (filtered : List WrappedEntityFieldLi) (st : FieldSelState)
    (i : Nat) (p : String) (a : Nat)
    (hne : filtered ≠ []) (ha : st.lastSelectedIndex = some a) :
    (updateSelection true m c filtered st i p).lastSelectedIndex = some i ∧
    (updateSelection true m c filtered st i p).selectedFieldPaths
      = rangeNames filtered (min a i) (max a i) := by
  have hlen : filtered.length ≠ 0 := by simpa [List.length_eq_zero] using hne
  rw [updateSelection_shift_anchor m c filtered st i p a hlen ha]
  exact ⟨rfl, rfl⟩

/-- Witness for the amended C3 at a concrete input. -/
theorem range_click_replaces_selection_sets_anchor_witness :
    (updateSelection true false false ceFields ⟨∅, some 0⟩ 1 "b").lastSelectedIndex
        = some 1 ∧
    (updateSelection true false false ceFields ⟨∅, some 0⟩ 1 "b").selectedFieldPaths
        = rangeNames ceFields (min 0 1) (max 0 1) :=
  range_click_replaces_selection_sets_anchor false false ceFields ⟨∅, some 0⟩
    1 "b" 0 (by decide) rfl

/-- C10: a shift click performed when no anchor exists does not range-select;
it is exactly a plain click on that row, the clicked row's index becomes the
new anchor, and the selection becomes the singleton of the row's display
name. -/
theorem shift_click_without_anchor_is_plain_click
    (filtered : List WrappedEntityFieldLi) (st : FieldSelState)
    (i : Nat) (p : String) (ha : st.lastSelectedIndex = none) :
    updateSelection true false false filtered st i p
        = updateSelection false false false filtered st i p ∧
    (filtered ≠ [] →
      (updateSelection true false false filtered st i p).lastSelectedIndex
          = some i ∧
      (updateSelection true false false filtered st i p).selectedFieldPaths
          = {p}) := by
  refine ⟨updateSelection_shift_noanchor false false filtered st i p ha, ?_⟩
  intro hne
  have hlen : filtered.length ≠ 0 := by simpa [List.length_eq_zero] using hne
  rw [updateSelection_shift_noanchor false false filtered st i p ha,
    updateSelection_nonshift false false filtered st i p hlen]
  refine ⟨rfl, ?_⟩
  unfold nonRangeSelection
  rw [if_neg (by simp)]
  by_cases hc : st.selectedFieldPaths.card = 1 ∧ p ∈ st.selectedFieldPaths
  · rw [if_pos hc]
    exact (singleton_iff_card_and_mem _ _).mp hc
  · rw [if_neg hc]

/-- Witness for C10 at a concrete input. -/
theorem shift_click_without_anchor_is_plain_click_witness :
    (updateSelection true false false ceFields ⟨∅, none⟩ 1 "b").lastSelectedIndex
        = some 1 ∧
    (updateSelection true false false ceFields ⟨∅, none⟩ 1 "b").selectedFieldPaths
        = {"b"} :=
  (shift_click_without_anchor_is_plain_click ceFields ⟨∅, none⟩ 1 "b" rfl).2
    (by decide)

/-- C5: after the prune effect runs against a new filtered list, a display
name is selected iff it was selected before and occurs in the new list
(absent members are removed, all others kept); an empty list empties the
selection, and the spec's concrete pruning example holds. -/
theorem selection_prune_exact :
    (∀ (l : List WrappedEntityFieldLi) (st : FieldSelState) (p : String),
      p ∈ (pruneEffect (some l) st).selectedFieldPaths ↔
        (p ∈ st.selectedFieldPaths ∧ p ∈ l.map (·.joinedNamedPath))) ∧
    (∀ st : FieldSelState, (pruneEffect (some []) st).selectedFieldPaths = ∅) ∧
    ((pruneEffect (some [wrapField ⟨[0], ["a", "b"], "t", "u", "v"⟩])
        ⟨{"a.b", "c.d"}, some 0⟩).selectedFieldPaths = {"a.b"}) := by
  refine ⟨?_, fun st => rfl, by decide⟩
  intro l st p
  simp only [pruneEffect]
  by_cases hl : l.length = 0
  · rw [if_pos hl]
    rw [List.length_eq_zero] at hl
    subst hl
    simp
  · rw [if_neg hl]
    simp [Finset.mem_filter, List.mem_toFinset]

/-- Witness for C1 at concrete inputs, exercising transitivity. -/
theorem display_order_witness : pathLe [0] [2] = true :=
  display_order_total_and_sort_idempotent.2.1 [0] [1] [2] (by decide) (by decide)

/-- C2: the entity-list JSON export is computed only from the parser and
the view: it lists exactly the source stage's fresh entity listing, each
entity with its full freshly fetched field list; its length equals the
unfiltered entity count; and neither the filtered list, the field
selection, anchor, nor the selected entity affect it. -/
theorem export_all_ignores_filter_and_selection :
    (∀ st₁ st₂ : InspectorState, st₁.demParser = st₂.demParser →
      st₁.demView = st₂.demView →
      collectEntitiesForExport st₁ = collectEntitiesForExport st₂) ∧
    (∀ st : InspectorState,
      (collectEntitiesForExport st).length = ((entityList st).getD []).length) ∧
    (∀ st : InspectorState,
      collectEntitiesForExport st = ((entityList st).getD []).map fun entity =>
        ⟨entity.index, entity.name,
          ((sourceFields st entity.index).getD []).map exportFieldOfEntityField⟩) ∧
    (∀ (st : InspectorState) (payload : ExportAllPayload),
      handleExportAllJson st = some payload →
      payload.entities = collectEntitiesForExport st) := by
  have key : ∀ st : InspectorState,
      collectEntitiesForExport st = ((entityList st).getD []).map fun entity =>
        (⟨entity.index, entity.name,
          ((sourceFields st entity.index).getD []).map exportFieldOfEntityField⟩ :
            ExportEntity) := by
    rintro ⟨_ | parser, v, tick, selIdx, fl, ffl, fs⟩
    · rfl
    · rcases v
      · rcases hl : parser.listEntities with _ | (_ | ⟨e, es⟩) <;>
          simp [collectEntitiesForExport, entityList, sourceFields,
            isBaselineView, hl]
      · rcases hl : parser.listBaselineEntities with _ | (_ | ⟨e, es⟩) <;>
          simp [collectEntitiesForExport, entityList, sourceFields,
            isBaselineView, hl]
  refine ⟨?_, ?_, key, ?_⟩
  · intro st₁ st₂ h₁ h₂
    unfold collectEntitiesForExport isBaselineView
    rw [h₁, h₂]
  · intro st
    rw [key st, List.length_map]
  · intro st payload h
    unfold handleExportAllJson at h
    by_cases hlen : (collectEntitiesForExport st).length = 0
    · rw [if_pos hlen] at h
      cases h
    · rw [if_neg hlen] at h
      cases h
      rfl

/-- Witness for C2 at concrete inputs: two states sharing parser and view
but differing in filter and selection export identically. -/
theorem export_all_ignores_filter_and_selection_witness :
    collectEntitiesForExport ceStateA = collectEntitiesForExport ceStateB :=
  export_all_ignores_filter_and_selection.1 ceStateA ceStateB rfl rfl

/-- C8: when the selection is non-empty (and, per the §3 invariant, every
selected name occurs in the filtered list), the plain-text field export
emits one `exportLine` per selected row, in the filtered list's order;
with an empty selection it emits exactly one line per filtered row, in the
filtered list's order — never the full unfiltered list. -/
theorem field_export_selected_else_filtered
    (l : List WrappedEntityFieldLi) (st : InspectorState)
    (hl : st.filteredEntityFieldList = some l)
    (hsub : ∀ p ∈ st.fieldSel.selectedFieldPaths,
      p ∈ l.map (·.joinedNamedPath)) :
    (st.fieldSel.selectedFieldPaths ≠ ∅ →
      exportRawLines st = some ((l.filter
        (fun f => f.joinedNamedPath ∈ st.fieldSel.selectedFieldPaths)).map
          exportLine)) ∧
    (st.fieldSel.selectedFieldPaths = ∅ → l ≠ [] →
      exportRawLines st = some (l.map exportLine)) := by
  constructor
  · intro hne
    have hcard : st.fieldSel.selectedFieldPaths.card ≠ 0 := by
      simpa [Finset.card_eq_zero] using hne
    have hsel : selectedFields st =
        l.filter (fun f => f.joinedNamedPath ∈ st.fieldSel.selectedFieldPaths) := by
      simp only [selectedFields, hl]
      rw [if_neg hcard]
    obtain ⟨p, hp⟩ := Finset.nonempty_iff_ne_empty.mpr hne
    obtain ⟨f, hf, hfp⟩ := List.mem_map.mp (hsub p hp)
    have hfmem : f ∈ l.filter
        (fun g => g.joinedNamedPath ∈ st.fieldSel.selectedFieldPaths) := by
      rw [List.mem_filter]
      exact ⟨hf, by simp [hfp, hp]⟩
    have hpos : 0 < (selectedFields st).length := by
      rw [hsel]
      exact List.length_pos.mpr (List.ne_nil_of_mem hfmem)
    unfold exportRawLines exportableFields
    rw [if_pos hpos, if_neg (by omega), hsel]
  · intro hemp hne
    have hsel : selectedFields st = [] := by
      simp only [selectedFields, hl]
      rw [if_pos (by simp [hemp])]
    unfold exportRawLines exportableFields visibleFields
    rw [hsel]
    simp only [List.length_nil, lt_irrefl, if_false, hl, Option.getD_some]
    rw [if_neg (by simpa [List.length_eq_zero] using hne)]

/-- Witness for C8 at a concrete input: filter active (one of two fields
visible), nothing selected. -/
theorem field_export_selected_else_filtered_witness :
    exportRawLines ⟨some ceParser, .entities, 3, some 1, none,
        some [wrapField ceField0], ⟨∅, none⟩⟩
      = some ([wrapField ceField0].map exportLine) :=
  (field_export_selected_else_filtered [wrapField ceField0]
    ⟨some ceParser, .entities, 3, some 1, none, some [wrapField ceField0],
      ⟨∅, none⟩⟩ rfl (by decide)).2 rfl (by decide)

/-- C9: a plain (modifier-free) click on a row with a valid handle toggles
the shared selected-entity state to the handle's target index, while an
invalid or absent handle, or any modifier, leaves that state untouched; in
every case the row-selection update of §4.4 still runs. A handle is
resolved only when `encodedAs` starts with `CHandle` and the external
validity predicate accepts the value (otherwise it is `none`). -/
theorem handle_click_toggles_entity_only_when_valid_plain
    (valid : Nat → Bool) (toIdx : Nat → Nat)
    (filtered : List WrappedEntityFieldLi) (sel : FieldSelState)
    (ent : Option Nat) (i : Nat) (f : WrappedEntityFieldLi) (v : Nat)
    (p : String) (s m c : Bool) :
    (∀ t, linkedEntIdx valid toIdx f v = some t →
      handleFieldClick false false false filtered sel ent i
          (linkedEntIdx valid toIdx f v) p
        = (updateSelection false false false filtered sel i p,
            if ent = some t then none else some t)) ∧
    (linkedEntIdx valid toIdx f v = none →
      handleFieldClick s m c filtered sel ent i
          (linkedEntIdx valid toIdx f v) p
        = (updateSelection s m c filtered sel i p, ent)) ∧
    ((s || m || c) = true →
      handleFieldClick s m c filtered sel ent i
          (linkedEntIdx valid toIdx f v) p
        = (updateSelection s m c filtered sel i p, ent)) ∧
    (strStartsWith f.inner.encodedAs "CHandle" = false ∨ valid v = false →
      linkedEntIdx valid toIdx f v = none) := by
  refine ⟨?_, ?_, ?_, ?_⟩
  · intro t ht
    rw [ht]
    rfl
  · intro ht
    rw [ht]
    rfl
  · intro hmod
    rcases hlink : linkedEntIdx valid toIdx f v with _ | t
    · rfl
    · unfold handleFieldClick
      rcases s <;> rcases m <;> rcases c <;> first
        | rfl
        | cases hmod
  · intro h
    unfold linkedEntIdx
    rcases h with h | h <;> rw [if_neg (by simp [h])]

/-- Witness for C9 at a concrete input: plain click on a valid handle
targeting entity 7 while entity 1 is selected navigates to entity 7. -/
theorem handle_click_toggles_entity_witness :
    handleFieldClick false false false ceFields ⟨∅, none⟩ (some 1) 0
        (linkedEntIdx (fun v => decide (v < 100)) (fun v => v)
          (wrapField ceHandleField) 7) "owner"
      = (updateSelection false false false ceFields ⟨∅, none⟩ 0 "owner",
          some 7) :=
  (handle_click_toggles_entity_only_when_valid_plain
    (fun v => decide (v < 100)) (fun v => v) ceFields ⟨∅, none⟩ (some 1) 0
    (wrapField ceHandleField) 7 "owner" false false false).1 7 (by decide)

theorem natToChars_of_lt {n : Nat} (h : n < 10) :
    natToChars n = [Nat.digitChar n] := by
  unfold natToChars
  exact dif_pos h

theorem natToChars_of_ge {n : Nat} (h : 10 ≤ n) :
    natToChars n = natToChars (n / 10) ++ [Nat.digitChar (n % 10)] := by
  conv_lhs => unfold natToChars
  rw [dif_neg (show ¬ n < 10 by omega)]

theorem natToChars_length_pos (n : Nat) : 0 < (natToChars n).length := by
  by_cases h : n < 10
  · rw [natToChars_of_lt h]
    simp
  · rw [natToChars_of_ge (by omega)]
    simp

theorem natToChars_length_le :
    ∀ k, 1 ≤ k → ∀ n, n < 10 ^ k → (natToChars n).length ≤ k := by
  intro k
  induction k with
  | zero => omega
  | succ k ih =>
    intro _ n hn
    by_cases h : n < 10
    · rw [natToChars_of_lt h]
      simp
    · have hk : 1 ≤ k := by
        by_contra hk
        have : k = 0 := by omega
        subst this
        simp [pow_succ] at hn
        omega
      rw [natToChars_of_ge (by omega)]
      have hq : n / 10 < 10 ^ k := by
        rw [Nat.div_lt_iff_lt_mul (by omega)]
        calc n < 10 ^ (k + 1) := hn
        _ = 10 ^ k * 10 := by ring
      have := ih hk (n / 10) hq
      simp only [List.length_append, List.length_cons, List.length_nil]
      omega

theorem natToChars_length_lt_imp :
    ∀ b a, (natToChars a).length < (natToChars b).length → a < b := by
  intro b
  induction b using Nat.strong_induction_on with
  | _ b ih =>
    intro a hlen
    by_cases hb : b < 10
    · rw [natToChars_of_lt hb] at hlen
      have := natToChars_length_pos a
      simp only [List.length_cons, List.length_nil] at hlen
      omega
    · by_cases ha : a < 10
      · omega
      · rw [natToChars_of_ge (show 10 ≤ a by omega),
          natToChars_of_ge (show 10 ≤ b by omega)] at hlen
        simp only [List.length_append, List.length_cons, List.length_nil] at hlen
        have hq : a / 10 < b / 10 :=
          ih (b / 10) (by omega) (a / 10) (by omega)
        omega

theorem digitChar_toNat {d : Nat} (h : d < 10) :
    (Nat.digitChar d).toNat = 48 + d := by
  interval_cases d <;> rfl

theorem natToChars_mem_digit :
    ∀ n c, c ∈ natToChars n → 48 ≤ c.toNat ∧ c.toNat ≤ 57 := by
  intro n
  induction n using Nat.strong_induction_on with
  | _ n ih =>
    intro c hc
    by_cases h : n < 10
    · rw [natToChars_of_lt h] at hc
      simp at hc
      subst hc
      rw [digitChar_toNat h]
      omega
    · rw [natToChars_of_ge (by omega)] at hc
      rcases List.mem_append.mp hc with hc | hc
      · exact ih (n / 10) (by omega) c hc
      · simp at hc
        subst hc
        rw [digitChar_toNat (by omega)]
        omega

theorem lexCmp_cons (a b : Char) (as bs : List Char) :
    lexCmp (a :: as) (b :: bs) =
      if a.toNat < b.toNat then .lt
      else if b.toNat < a.toNat then .gt
      else lexCmp as bs := rfl

theorem lexCmp_refl : ∀ x, lexCmp x x = .eq
  | [] => rfl
  | a :: as => by
    rw [lexCmp_cons, if_neg (lt_irrefl _), if_neg (lt_irrefl _)]
    exact lexCmp_refl as

theorem lexCmp_swap : ∀ x y, lexCmp x y = (lexCmp y x).swap
  | [], [] => rfl
  | [], _ :: _ => rfl
  | _ :: _, [] => rfl
  | a :: as, b :: bs => by
    rw [lexCmp_cons, lexCmp_cons]
    rcases Nat.lt_trichotomy a.toNat b.toNat with h | h | h
    · simp [h, show ¬ b.toNat < a.toNat by omega, Ordering.swap]
    · have h1 : ¬ a.toNat < b.toNat := by omega
      have h2 : ¬ b.toNat < a.toNat := by omega
      rw [if_neg h1, if_neg h2, if_neg h2, if_neg h1]
      exact lexCmp_swap as bs
    · simp [h, show ¬ a.toNat < b.toNat by omega, Ordering.swap]

theorem lexCmp_append :
    ∀ (x y u v : List Char), x.length = y.length →
      lexCmp (x ++ u) (y ++ v) =
        match lexCmp x y with
        | .eq => lexCmp u v
        | o => o
  | [], [], u, v, _ => rfl
  | [], _ :: _, _, _, h => by simp at h
  | _ :: _, [], _, _, h => by simp at h
  | a :: as, b :: bs, u, v, h => by
    simp only [List.cons_append, lexCmp_cons]
    rcases Nat.lt_trichotomy a.toNat b.toNat with hab | hab | hab
    · rw [if_pos hab, if_pos hab]
    · have h1 : ¬ a.toNat < b.toNat := by omega
      have h2 : ¬ b.toNat < a.toNat := by omega
      rw [if_neg h1, if_neg h2, if_neg h1, if_neg h2]
      exact lexCmp_append as bs u v (by simpa using h)
    · have h1 : ¬ a.toNat < b.toNat := by omega
      rw [if_neg h1, if_pos hab, if_neg h1, if_pos hab]

theorem natCmpO_lt_iff (a b : Nat) : natCmpO a b = .lt ↔ a < b := by
  unfold natCmpO
  rcases Nat.lt_trichotomy a b with h | h | h
  · simp [h]
  · subst h
    simp
  · simp [h, show ¬ a < b by omega]

theorem natCmpO_eq_iff (a b : Nat) : natCmpO a b = .eq ↔ a = b := by
  unfold natCmpO
  rcases Nat.lt_trichotomy a b with h | h | h
  · simp [h]
    omega
  · subst h
    simp
  · simp [h, show ¬ a < b by omega]
    omega

theorem natCmpO_gt_iff (a b : Nat) : natCmpO a b = .gt ↔ b < a := by
  unfold natCmpO
  rcases Nat.lt_trichotomy a b with h | h | h
  · simp [h]
    omega
  · subst h
    simp
  · simp [h, show ¬ a < b by omega]

theorem lexCmp_digitChar {x y : Nat} (hx : x < 10) (hy : y < 10) :
    lexCmp [Nat.digitChar x] [Nat.digitChar y] = natCmpO x y := by
  rw [lexCmp_cons, digitChar_toNat hx, digitChar_toNat hy]
  unfold natCmpO
  rcases Nat.lt_trichotomy x y with h | h | h
  · rw [if_pos (by omega), if_pos h]
  · subst h
    rw [if_neg (by omega), if_neg (by omega), if_neg (lt_irrefl x),
      if_neg (lt_irrefl x)]
    rfl
  · rw [if_neg (by omega), if_pos (by omega), if_neg (show ¬ x < y by omega),
      if_pos h]

theorem natCmpO_congr_divmod {a b : Nat} (h : a / 10 = b / 10) :
    natCmpO (a % 10) (b % 10) = natCmpO a b := by
  unfold natCmpO
  rcases Nat.lt_trichotomy (a % 10) (b % 10) with hm | hm | hm
  · rw [if_pos hm, if_pos (by omega)]
  · rw [if_neg (by omega), if_neg (by omega), if_neg (show ¬ a < b by omega),
      if_neg (show ¬ b < a by omega)]
  · rw [if_neg (show ¬ a % 10 < b % 10 by omega), if_pos hm,
      if_neg (show ¬ a < b by omega), if_pos (by omega)]

theorem lexCmp_natToChars_eq_natCmpO :
    ∀ a, ∀ b, (natToChars a).length = (natToChars b).length →
      lexCmp (natToChars a) (natToChars b) = natCmpO a b := by
  intro a
  induction a using Nat.strong_induction_on with
  | _ a ih =>
    intro b hlen
    by_cases ha : a < 10
    · have hb : b < 10 := by
        by_contra hb
        rw [natToChars_of_lt ha,
          natToChars_of_ge (show 10 ≤ b by omega)] at hlen
        have := natToChars_length_pos (b / 10)
        simp only [List.length_cons, List.length_nil,
          List.length_append] at hlen
        omega
      rw [natToChars_of_lt ha, natToChars_of_lt hb]
      exact lexCmp_digitChar ha hb
    · have hb : ¬ b < 10 := by
        intro hb
        rw [natToChars_of_ge (show 10 ≤ a by omega),
          natToChars_of_lt hb] at hlen
        have := natToChars_length_pos (a / 10)
        simp only [List.length_cons, List.length_nil,
          List.length_append] at hlen
        omega
      have hlq : (natToChars (a / 10)).length = (natToChars (b / 10)).length := by
        rw [natToChars_of_ge (show 10 ≤ a by omega),
          natToChars_of_ge (show 10 ≤ b by omega)] at hlen
        simp only [List.length_append, List.length_cons,
          List.length_nil] at hlen
        omega
      rw [natToChars_of_ge (show 10 ≤ a by omega),
        natToChars_of_ge (show 10 ≤ b by omega),
        lexCmp_append _ _ _ _ hlq, ih (a / 10) (by omega) (b / 10) hlq]
      rcases hq : natCmpO (a / 10) (b / 10) with _ | _ | _
      · simp only [hq]
        have h10 : a / 10 < b / 10 := (natCmpO_lt_iff _ _).mp hq
        rw [(natCmpO_lt_iff a b).mpr (by omega)]
      · simp only [hq]
        have h10 : a / 10 = b / 10 := (natCmpO_eq_iff _ _).mp hq
        rw [lexCmp_digitChar (Nat.mod_lt a (by omega)) (Nat.mod_lt b (by omega))]
        exact natCmpO_congr_divmod h10
      · simp only [hq]
        have h10 : b / 10 < a / 10 := (natCmpO_gt_iff _ _).mp hq
        rw [(natCmpO_gt_iff a b).mpr (by omega)]

theorem lexCmp_space_pad_lt (x y : List Char)
    (hx4 : x.length ≤ 4) (hy4 : y.length ≤ 4) (hxy : x.length < y.length)
    (hy : ∀ c ∈ y, 48 ≤ c.toNat) :
    lexCmp (padStart4 x) (padStart4 y) = .lt := by
  have hsplit : List.replicate (4 - x.length) ' ' =
      List.replicate (4 - y.length) ' '
        ++ List.replicate (y.length - x.length) ' ' := by
    rw [← List.replicate_add]
    congr 1
    omega
  unfold padStart4
  rw [hsplit, List.append_assoc, lexCmp_append _ _ _ _ rfl, lexCmp_refl]
  show lexCmp (List.replicate (y.length - x.length) ' ' ++ x) y = .lt
  have hk : y.length - x.length = (y.length - x.length - 1) + 1 := by omega
  rw [hk, List.replicate_succ, List.cons_append]
  cases hyc : y with
  | nil =>
    rw [hyc] at hxy
    simp at hxy
  | cons c cs =>
    rw [lexCmp_cons, if_pos]
    have hc : 48 ≤ c.toNat := hy c (by rw [hyc]; exact List.mem_cons_self c cs)
    show (' ').toNat < c.toNat
    have hsp : (' ').toNat = 32 := rfl
    omega

theorem natToChars_length_le_four {a : Nat} (ha : a ≤ 9999) :
    (natToChars a).length ≤ 4 := by
  refine natToChars_length_le 4 (by omega) a ?_
  have h4 : (10 : Nat) ^ 4 = 10000 := by norm_num
  omega

theorem lexCmp_padStart4_eq_natCmpO {a b : Nat} (ha : a ≤ 9999) (hb : b ≤ 9999) :
    lexCmp (padStart4 (natToChars a)) (padStart4 (natToChars b)) = natCmpO a b := by
  have hla := natToChars_length_le_four ha
  have hlb := natToChars_length_le_four hb
  rcases Nat.lt_trichotomy (natToChars a).length (natToChars b).length with h | h | h
  · have hab : a < b := natToChars_length_lt_imp b a h
    rw [lexCmp_space_pad_lt _ _ hla hlb h
      (fun c hc => (natToChars_mem_digit b c hc).1),
      (natCmpO_lt_iff a b).mpr hab]
  · unfold padStart4
    rw [h, lexCmp_append _ _ _ _ rfl, lexCmp_refl]
    show lexCmp (natToChars a) (natToChars b) = natCmpO a b
    exact lexCmp_natToChars_eq_natCmpO a b h
  · have hab : b < a := natToChars_length_lt_imp a b h
    rw [lexCmp_swap, lexCmp_space_pad_lt _ _ hlb hla h
      (fun c hc => (natToChars_mem_digit a c hc).1),
      (natCmpO_gt_iff a b).mpr hab]
    rfl

theorem lexCmp_flatten_eq_pathCmp :
    ∀ (p q : List Nat), (∀ x ∈ p, x ≤ 9999) → (∀ x ∈ q, x ≤ 9999) →
      lexCmp ((p.map (fun part => padStart4 (natToChars part))).flatten)
        ((q.map (fun part => padStart4 (natToChars part))).flatten)
        = pathCmp p q
  | [], [], _, _ => rfl
  | [], b :: bs, _, hq => by
    simp only [List.map_nil, List.flatten_nil, List.map_cons, List.flatten_cons]
    have hpos : 0 < (padStart4 (natToChars b)).length := by
      unfold padStart4
      simp only [List.length_append, List.length_replicate]
      have := natToChars_length_pos b
      omega
    cases hc : padStart4 (natToChars b) with
    | nil =>
      rw [hc] at hpos
      simp at hpos
    | cons c cs => rfl
  | a :: as, [], hp, _ => by
    simp only [List.map_nil, List.flatten_nil, List.map_cons, List.flatten_cons]
    have hpos : 0 < (padStart4 (natToChars a)).length := by
      unfold padStart4
      simp only [List.length_append, List.length_replicate]
      have := natToChars_length_pos a
      omega
    cases hc : padStart4 (natToChars a) with
    | nil =>
      rw [hc] at hpos
      simp at hpos
    | cons c cs => rfl
  | a :: as, b :: bs, hp, hq => by
    simp only [List.map_cons, List.flatten_cons]
    have ha : a ≤ 9999 := hp a (by simp)
    have hb : b ≤ 9999 := hq b (by simp)
    have hlen : (padStart4 (natToChars a)).length
        = (padStart4 (natToChars b)).length := by
      unfold padStart4
      simp only [List.length_append, List.length_replicate]
      have := natToChars_length_le_four ha
      have := natToChars_length_le_four hb
      omega
    rw [lexCmp_append _ _ _ _ hlen, lexCmp_padStart4_eq_natCmpO ha hb,
      pathCmp_cons]
    rcases Nat.lt_trichotomy a b with h | h | h
    · rw [(natCmpO_lt_iff a b).mpr h]
      rw [if_pos h]
    · subst h
      rw [(natCmpO_eq_iff a a).mpr rfl, if_neg (lt_irrefl a),
        if_neg (lt_irrefl a)]
      exact lexCmp_flatten_eq_pathCmp as bs
        (fun x hx => hp x (by simp [hx])) (fun x hx => hq x (by simp [hx]))
    · rw [(natCmpO_gt_iff a b).mpr h, if_neg (show ¬ a < b by omega), if_pos h]

/-- C4 counterexample: for the path `[5]` the derived sort key is the
space-padded `"   5"`, not the zero-padded `"0005"` the claim describes. -/
theorem sortKey_zero_padding_ce :
    joinedPath ⟨[5], ["x"], "t", "u", "v"⟩
      ≠ specZeroPadSortKey ⟨[5], ["x"], "t", "u", "v"⟩ := by
  have h5 : natToChars 5 = ['5'] := by
    rw [natToChars_of_lt (by omega)]
    rfl
  simp only [joinedPath, specZeroPadSortKey, List.map_cons, List.map_nil,
    List.flatten_cons, List.flatten_nil, h5]
  decide

/-- C4 amended: the derived sort key concatenates the path integers each
left-padded with spaces (not zeros) to 4 characters, and for any two
fields whose path elements fit in that width lexicographic (string)
comparison of their sort keys coincides with the §3 numeric path order. -/
theorem sortKey_lex_matches_path_order (f g : EntityFieldLi)
    (hf : ∀ x ∈ f.path, x ≤ 9999) (hg : ∀ x ∈ g.path, x ≤ 9999) :
    (joinedPath f).data
        = (f.path.map (fun part => padStart4 (natToChars part))).flatten ∧
    lexCmp (joinedPath f).data (joinedPath g).data = pathCmp f.path g.path :=
  ⟨rfl, lexCmp_flatten_eq_pathCmp f.path g.path hf hg⟩

/-- Witness for the amended C4 at concrete inputs. -/
theorem sortKey_lex_matches_path_order_witness :
    lexCmp (joinedPath ⟨[5], ["x"], "t", "u", "v"⟩).data
        (joinedPath ⟨[10, 2], ["y", "z"], "t", "u", "v"⟩).data
      = pathCmp [5] [10, 2] :=
  (sortKey_lex_matches_path_order ⟨[5], ["x"], "t", "u", "v"⟩
    ⟨[10, 2], ["y", "z"], "t", "u", "v"⟩ (by decide) (by decide)).2

end HasteInspector
